import Mathlib

/-!
Verification of src/convert_uppercase.py.

The script reads all lines of a file, keeps only the lines whose first
character is a lowercase ASCII letter, capitalizes the first two
whitespace-delimited tokens of each kept line, rejoins the tokens with
single spaces plus a trailing newline, and overwrites the file with the
kept lines only.  We embed the string operations the script uses
(readlines, one-character islower, split, capitalize, join, writelines)
as functions on lists of characters, modelling the ASCII fragment of the
corresponding Unicode-aware Python operations, and the module body as a
function from file contents to an optional output, where the value none
models an uncaught IndexError aborting the run.
-/

/-- ASCII whitespace recognised by the no-argument form of Python str.split
(space, tab, newline, carriage return, vertical tab, form feed). -/
def pyIsSpace (c : Char) : Bool :=
  decide (c = ' ' ∨ c = '\t' ∨ c = '\n' ∨ c = '\r' ∨ c = '\x0b' ∨ c = '\x0c')

/-- One-character form of Python str.islower on ASCII: true exactly for
codepoints 97 to 122, the lowercase letters. -/
def pyIsLower (c : Char) : Bool :=
  decide (97 ≤ c.toNat ∧ c.toNat ≤ 122)

/-- ASCII uppercasing of a single character, as used by Python
str.capitalize on the first character of a token. -/
def pyToUpper (c : Char) : Char :=
  if 97 ≤ c.toNat ∧ c.toNat ≤ 122 then Char.ofNat (c.toNat - 32) else c

/-- ASCII lowercasing of a single character, as used by Python
str.capitalize on the remaining characters of a token. -/
def pyToLower (c : Char) : Char :=
  if 65 ≤ c.toNat ∧ c.toNat ≤ 90 then Char.ofNat (c.toNat + 32) else c

/-- Python str.capitalize: uppercase the first character, lowercase all
subsequent characters. -/
def pyCapitalize : List Char → List Char
  | [] => []
  | c :: cs => pyToUpper c :: cs.map pyToLower

/-- Python str.split with no argument: maximal runs of non-whitespace
characters; leading, trailing and repeated whitespace produce no empty
tokens. -/
def pySplit : List Char → List (List Char)
  | [] => []
  | [c] => if pyIsSpace c then [] else [[c]]
  | c :: d :: rest =>
    if pyIsSpace c then pySplit (d :: rest)
    else if pyIsSpace d then [c] :: pySplit rest
    else
      match pySplit (d :: rest) with
      | [] => [[c]]
      | t :: ts => (c :: t) :: ts

/-- The expression joining a token list with single spaces, as in the
script line converted = \x7b space \x7d .join(words). -/
def joinSpace : List (List Char) → List Char
  | [] => []
  | [w] => w
  | w :: ws => w ++ ' ' :: joinSpace ws

/-- Python file.readlines on the file contents: split into lines, each
line keeping its terminating newline; a final segment without a newline
is kept; an empty file yields an empty list. -/
def pyReadlines : List Char → List (List Char)
  | [] => []
  | c :: rest =>
    if c = '\n' then ['\n'] :: pyReadlines rest
    else
      match pyReadlines rest with
      | [] => [[c]]
      | l :: ls => (c :: l) :: ls

/-- Python file.writelines: concatenate the buffered lines. -/
def writelines : List (List Char) → List Char
  | [] => []
  | l :: ls => l ++ writelines ls

/-- The filter predicate of the loop, lines[i][0].islower(), as a total
predicate: an empty line (which readlines never produces) does not
qualify. -/
def qualifies : List Char → Bool
  | [] => false
  | c :: _ => pyIsLower c

/-- One iteration of the transform loop on a line.  The value none models
an uncaught IndexError (lines[i][0] on an empty line, or words[0] or
words[1] on a line with fewer than two tokens); some none models a line
skipped by the islower test; some (some out) models output.append(out). -/
def lineStep (l : List Char) : Option (Option (List Char)) :=
  match l with
  | [] => none
  | c :: _ =>
    if pyIsLower c then
      match pySplit l with
      | w0 :: w1 :: ws =>
        some (some (joinSpace (pyCapitalize w0 :: pyCapitalize w1 :: ws) ++ ['\n']))
      | _ => none
    else some none

/-- The whole transform loop over the line list: the accumulated output
buffer, or none if some iteration raises. -/
def runLines : List (List Char) → Option (List (List Char))
  | [] => some []
  | l :: ls =>
    match lineStep l, runLines ls with
    | some (some out), some rest => some (out :: rest)
    | some none, some rest => some rest
    | _, _ => none

/-- The module body of convert_uppercase.py as a function from the file
contents read to the contents written, or none when the run dies with an
IndexError before reaching the write. -/
def convertUppercase (input : List Char) : Option (List Char) :=
  match runLines (pyReadlines input) with
  | some out => some (writelines out)
  | none => none

/-- Capitalize the tokens at positions below two, keep the others, given
the position of the first token; used to phrase the specified per-line
output. -/
def capFirstTwo : Nat → List (List Char) → List (List Char)
  | _, [] => []
  | i, w :: ws => (if i < 2 then pyCapitalize w else w) :: capFirstTwo (i + 1) ws

/-- The output line the specification describes for a qualifying line:
the tokens of the line with the first two capitalized and the rest kept
verbatim, rejoined with single spaces, with one trailing newline. -/
def specLineOutput (l : List Char) : List Char :=
  joinSpace (capFirstTwo 0 (pySplit l)) ++ ['\n']

/-- File-system events the script can perform on the target file. -/
inductive FileEvent where
  | openRead
  | openWrite
  | writeAll (s : List Char)
deriving DecidableEq

/-- Event trace of one run on a file holding the given contents: the read
and the whole transform loop happen first, and only if no iteration
raises does control reach the second open, which truncates, and the
write. -/
def runTrace (input : List Char) : List FileEvent :=
  match convertUppercase input with
  | some out => [FileEvent.openRead, FileEvent.openWrite, FileEvent.writeAll out]
  | none => [FileEvent.openRead]

/-- Effect of one file event on the file contents: opening for writing
truncates, writing replaces. -/
def applyEvent (file : List Char) : FileEvent → List Char
  | FileEvent.openRead => file
  | FileEvent.openWrite => []
  | FileEvent.writeAll s => s

/-- The contents of the target file after the run. -/
def finalFile (input : List Char) : List Char :=
  (runTrace input).foldl applyEvent input

example : pySplit " a  b ".data = [['a'], ['b']] := by decide
example : pyReadlines "a\n\nbc".data = ["a\n".data, "\n".data, "bc".data] := by decide
example : convertUppercase "apple banana\nCherry date\n".data = some "Apple Banana\n".data := by decide
example : convertUppercase "solo\n".data = none := by decide
example : pyCapitalize "eLDERb".data = "Elderb".data := by decide

/-! Character-level facts. -/

lemma charUpperRange :
    ∀ n, n < 91 → 65 ≤ n →
      pyIsLower (Char.ofNat n) = false ∧ pyIsSpace (Char.ofNat n) = false := by
  decide

lemma charLowerRange : ∀ n, n < 123 → 97 ≤ n → pyIsSpace (Char.ofNat n) = false := by
  decide

lemma pyIsLower_iff {c : Char} : pyIsLower c = true ↔ 97 ≤ c.toNat ∧ c.toNat ≤ 122 := by
  simp [pyIsLower]

lemma pyIsSpace_toNat_le {c : Char} (h : pyIsSpace c = true) : c.toNat ≤ 32 := by
  simp only [pyIsSpace, decide_eq_true_eq] at h
  rcases h with h | h | h | h | h | h <;> subst h <;> decide

lemma pyIsLower_not_space {c : Char} (h : pyIsLower c = true) : pyIsSpace c = false := by
  have hb := pyIsLower_iff.mp h
  cases hsp : pyIsSpace c with
  | false => rfl
  | true => have := pyIsSpace_toNat_le hsp; omega

lemma pyIsLower_pyToUpper {c : Char} (h : pyIsLower c = true) :
    pyIsLower (pyToUpper c) = false := by
  have hb := pyIsLower_iff.mp h
  rw [pyToUpper, if_pos hb]
  exact (charUpperRange (c.toNat - 32) (by omega) (by omega)).1

lemma pyToUpper_not_space {c : Char} (h : pyIsSpace c = false) :
    pyIsSpace (pyToUpper c) = false := by
  rw [pyToUpper]
  split
  · rename_i hb
    exact (charUpperRange (c.toNat - 32) (by omega) (by omega)).2
  · exact h

lemma pyToLower_not_space {c : Char} (h : pyIsSpace c = false) :
    pyIsSpace (pyToLower c) = false := by
  rw [pyToLower]
  split
  · rename_i hb
    exact charLowerRange (c.toNat + 32) (by omega) (by omega)
  · exact h

lemma pyCapitalize_not_space {w : List Char} (h : ∀ c ∈ w, pyIsSpace c = false) :
    ∀ c ∈ pyCapitalize w, pyIsSpace c = false := by
  cases w with
  | nil => simp [pyCapitalize]
  | cons a as =>
    intro c hc
    simp only [pyCapitalize, List.mem_cons] at hc
    rcases hc with rfl | hc
    · exact pyToUpper_not_space (h a (by simp))
    · obtain ⟨d, hd, rfl⟩ := List.mem_map.mp hc
      exact pyToLower_not_space (h d (by simp [hd]))

/-! Facts about pySplit. -/

lemma pySplit_tokens :
    ∀ l, ∀ w ∈ pySplit l, w ≠ [] ∧ ∀ c ∈ w, pyIsSpace c = false := by
  intro l
  induction l using pySplit.induct with
  | case1 => simp [pySplit]
  | case2 c hc => simp [pySplit, hc]
  | case3 c hc =>
    intro w hw
    simp only [pySplit, if_neg hc, List.mem_singleton] at hw
    subst hw
    refine ⟨by simp, ?_⟩
    intro x hx
    simp only [List.mem_singleton] at hx
    subst hx
    simpa using hc
  | case4 c d rest hc ih =>
    intro w hw
    rw [pySplit, if_pos hc] at hw
    exact ih w hw
  | case5 c d rest hc hd ih =>
    intro w hw
    rw [pySplit, if_neg hc, if_pos hd] at hw
    rcases List.mem_cons.mp hw with rfl | hw
    · exact ⟨by simp, by intro x hx; simp only [List.mem_singleton] at hx; subst hx; simpa using hc⟩
    · exact ih w hw
  | case6 c d rest hc hd hnil ih =>
    intro w hw
    rw [pySplit, if_neg hc, if_neg hd, hnil] at hw
    simp only [List.mem_singleton] at hw
    subst hw
    exact ⟨by simp, by intro x hx; simp only [List.mem_singleton] at hx; subst hx; simpa using hc⟩
  | case7 c d rest hc hd t ts hts ih =>
    intro w hw
    rw [pySplit, if_neg hc, if_neg hd, hts] at hw
    rcases List.mem_cons.mp hw with rfl | hw
    · have ht := ih t (by rw [hts]; simp)
      refine ⟨by simp, ?_⟩
      intro x hx
      rcases List.mem_cons.mp hx with rfl | hx
      · simpa using hc
      · exact ht.2 x hx
    · exact ih w (by rw [hts]; simp [hw])

lemma pySplit_cons_of_not_space {c : Char} (l : List Char) (h : pyIsSpace c = false) :
    ∃ t ts, pySplit (c :: l) = (c :: t) :: ts := by
  cases l with
  | nil => exact ⟨[], [], by simp [pySplit, h]⟩
  | cons d rest =>
    rw [pySplit, if_neg (by simp [h])]
    by_cases hd : pyIsSpace d = true
    · rw [if_pos hd]
      exact ⟨[], pySplit rest, rfl⟩
    · rw [if_neg hd]
      cases hts : pySplit (d :: rest) with
      | nil => exact ⟨[], [], rfl⟩
      | cons t ts => exact ⟨t, ts, rfl⟩

/-! Facts about joinSpace. -/

lemma joinSpace_cons_cons (w x : List Char) (ws : List (List Char)) :
    joinSpace (w :: x :: ws) = w ++ ' ' :: joinSpace (x :: ws) := by
  rfl

lemma joinSpace_head (a : Char) (w : List Char) (ws : List (List Char)) :
    ∃ r, joinSpace ((a :: w) :: ws) = a :: r := by
  cases ws with
  | nil => exact ⟨w, rfl⟩
  | cons x xs => exact ⟨w ++ ' ' :: joinSpace (x :: xs), rfl⟩

lemma newline_not_mem_joinSpace :
    ∀ ws : List (List Char), (∀ w ∈ ws, ∀ c ∈ w, pyIsSpace c = false) →
      '\n' ∉ joinSpace ws := by
  intro ws
  induction ws with
  | nil => simp [joinSpace]
  | cons w rest ih =>
    intro h hmem
    cases rest with
    | nil =>
      have : pyIsSpace '\n' = false := h w (by simp) '\n' (by simpa [joinSpace] using hmem)
      simp [pyIsSpace] at this
    | cons x xs =>
      rw [joinSpace_cons_cons] at hmem
      rcases List.mem_append.mp hmem with hmem | hmem
      · have : pyIsSpace '\n' = false := h w (by simp) '\n' hmem
        simp [pyIsSpace] at this
      · rcases List.mem_cons.mp hmem with hsp | hmem
        · exact absurd hsp (by decide)
        · exact ih (fun v hv => h v (by simp [hv])) hmem

/-! Facts about pyReadlines. -/

lemma mem_pyReadlines_ne_nil :
    ∀ s, ∀ l ∈ pyReadlines s, l ≠ [] := by
  intro s
  induction s using pyReadlines.induct with
  | case1 => simp [pyReadlines]
  | case2 cs ih =>
    intro l hl
    rw [pyReadlines, if_pos rfl] at hl
    rcases List.mem_cons.mp hl with rfl | hl
    · simp
    · exact ih l hl
  | case3 c cs hc hnil ih =>
    intro l hl
    rw [pyReadlines, if_neg hc, hnil] at hl
    simp only [List.mem_singleton] at hl
    subst hl
    simp
  | case4 c cs hc t ts hts ih =>
    intro l hl
    rw [pyReadlines, if_neg hc, hts] at hl
    rcases List.mem_cons.mp hl with rfl | hl
    · simp
    · exact ih l (by rw [hts]; simp [hl])

lemma pyReadlines_line_append {body : List Char} (rest : List Char) (h : '\n' ∉ body) :
    pyReadlines (body ++ '\n' :: rest) = (body ++ ['\n']) :: pyReadlines rest := by
  induction body with
  | nil => simp [pyReadlines]
  | cons c cs ih =>
    have hc : ¬ c = '\n' := fun hcn => h (by simp [hcn])
    have hcs : '\n' ∉ cs := fun hm => h (by simp [hm])
    rw [List.cons_append, pyReadlines, if_neg hc, ih hcs]
    simp

lemma pyReadlines_writelines :
    ∀ ls : List (List Char),
      (∀ l ∈ ls, ∃ body, l = body ++ ['\n'] ∧ '\n' ∉ body) →
      pyReadlines (writelines ls) = ls := by
  intro ls
  induction ls with
  | nil => intro _; simp [writelines, pyReadlines]
  | cons l rest ih =>
    intro h
    obtain ⟨body, rfl, hbody⟩ := h l (by simp)
    rw [writelines, List.append_assoc, List.singleton_append,
      pyReadlines_line_append _ hbody, ih (fun v hv => h v (by simp [hv]))]

/-! Facts about lineStep and runLines. -/

lemma lineStep_nil : lineStep [] = none := rfl

lemma lineStep_not_qualifies {l : List Char} (hne : l ≠ []) (h : qualifies l = false) :
    lineStep l = some none := by
  cases l with
  | nil => exact absurd rfl hne
  | cons c r =>
    rw [qualifies] at h
    rw [lineStep, if_neg (by simp [h])]

lemma lineStep_short {l : List Char} (hq : qualifies l = true)
    (hlen : (pySplit l).length < 2) : lineStep l = none := by
  cases l with
  | nil => rfl
  | cons c r =>
    rw [qualifies] at hq
    rw [lineStep, if_pos hq]
    cases hs : pySplit (c :: r) with
    | nil => rfl
    | cons w0 ws =>
      cases ws with
      | nil => rfl
      | cons w1 ws2 =>
        rw [hs] at hlen
        simp only [List.length_cons] at hlen
        omega

lemma lineStep_long {l : List Char} {w0 w1 : List Char} {ws : List (List Char)}
    (hq : qualifies l = true) (hs : pySplit l = w0 :: w1 :: ws) :
    lineStep l = some (some (joinSpace (pyCapitalize w0 :: pyCapitalize w1 :: ws) ++ ['\n'])) := by
  cases l with
  | nil => simp [pySplit] at hs
  | cons c r =>
    rw [qualifies] at hq
    rw [lineStep, if_pos hq, hs]

lemma capFirstTwo_of_ge : ∀ (ws : List (List Char)) (i : Nat), 2 ≤ i → capFirstTwo i ws = ws := by
  intro ws
  induction ws with
  | nil => intro i _; rfl
  | cons w rest ih =>
    intro i hi
    rw [capFirstTwo, if_neg (by omega), ih (i + 1) (by omega)]

lemma specLineOutput_eq {l : List Char} {w0 w1 : List Char} {ws : List (List Char)}
    (hs : pySplit l = w0 :: w1 :: ws) :
    specLineOutput l = joinSpace (pyCapitalize w0 :: pyCapitalize w1 :: ws) ++ ['\n'] := by
  rw [specLineOutput, hs, capFirstTwo, capFirstTwo, capFirstTwo_of_ge ws 2 (by omega),
    if_pos (by omega), if_pos (by omega)]

lemma lineStep_eq_skip {l : List Char} (h : lineStep l = some none) : qualifies l = false := by
  cases l with
  | nil => simp [lineStep] at h
  | cons c r =>
    rw [qualifies]
    by_contra hq
    rw [Bool.not_eq_false] at hq
    rw [lineStep, if_pos hq] at h
    cases hs : pySplit (c :: r) with
    | nil => rw [hs] at h; simp at h
    | cons w0 ws =>
      cases ws with
      | nil => rw [hs] at h; simp at h
      | cons w1 ws2 => rw [hs] at h; simp at h

lemma lineStep_eq_out {l x : List Char} (h : lineStep l = some (some x)) :
    qualifies l = true ∧ ∃ w0 w1 ws, pySplit l = w0 :: w1 :: ws ∧
      x = joinSpace (pyCapitalize w0 :: pyCapitalize w1 :: ws) ++ ['\n'] := by
  cases l with
  | nil => simp [lineStep] at h
  | cons c r =>
    by_cases hq : pyIsLower c = true
    · refine ⟨by rw [qualifies]; exact hq, ?_⟩
      cases hs : pySplit (c :: r) with
      | nil => rw [lineStep, if_pos hq, hs] at h; simp at h
      | cons w0 ws =>
        cases ws with
        | nil => rw [lineStep, if_pos hq, hs] at h; simp at h
        | cons w1 ws2 =>
          rw [lineStep, if_pos hq, hs] at h
          simp only [Option.some.injEq] at h
          exact ⟨w0, w1, ws2, rfl, h.symm⟩
    · rw [lineStep, if_neg hq] at h
      simp at h

lemma runLines_cons_none {l : List Char} {ls : List (List Char)}
    (h : lineStep l = none) : runLines (l :: ls) = none := by
  rw [runLines, h]

lemma runLines_cons_skip {l : List Char} {ls : List (List Char)}
    (h : lineStep l = some none) : runLines (l :: ls) = runLines ls := by
  rw [runLines, h]
  cases runLines ls <;> rfl

lemma runLines_cons_out {l out : List Char} {ls rest : List (List Char)}
    (h : lineStep l = some (some out)) (h2 : runLines ls = some rest) :
    runLines (l :: ls) = some (out :: rest) := by
  rw [runLines, h, h2]

lemma runLines_cons_out_none {l out : List Char} {ls : List (List Char)}
    (h : lineStep l = some (some out)) (h2 : runLines ls = none) :
    runLines (l :: ls) = none := by
  rw [runLines, h, h2]

lemma runLines_filter :
    ∀ ls out, runLines ls = some out →
      out = List.map specLineOutput (List.filter qualifies ls) := by
  intro ls
  induction ls with
  | nil =>
    intro out h
    rw [runLines, Option.some.injEq] at h
    simp [h.symm]
  | cons l rest ih =>
    intro out h
    cases hstep : lineStep l with
    | none => rw [runLines_cons_none hstep] at h; cases h
    | some o =>
      cases o with
      | none =>
        rw [runLines_cons_skip hstep] at h
        rw [List.filter_cons, if_neg (by simp [lineStep_eq_skip hstep])]
        exact ih out h
      | some x =>
        cases hrec : runLines rest with
        | none => rw [runLines_cons_out_none hstep hrec] at h; cases h
        | some r2 =>
          rw [runLines_cons_out hstep hrec, Option.some.injEq] at h
          obtain ⟨hq, w0, w1, ws, hs, hx⟩ := lineStep_eq_out hstep
          rw [List.filter_cons, if_pos (by simp [hq]), List.map_cons, ← ih r2 hrec,
            specLineOutput_eq hs, ← hx]
          exact h.symm

lemma runLines_all_skip :
    ∀ ls : List (List Char), (∀ l ∈ ls, l ≠ [] ∧ qualifies l = false) →
      runLines ls = some [] := by
  intro ls
  induction ls with
  | nil => intro _; rfl
  | cons l rest ih =>
    intro h
    have hl := h l (by simp)
    rw [runLines_cons_skip (lineStep_not_qualifies hl.1 hl.2)]
    exact ih (fun v hv => h v (by simp [hv]))

lemma runLines_none_iff :
    ∀ ls : List (List Char), runLines ls = none ↔ ∃ l ∈ ls, lineStep l = none := by
  intro ls
  induction ls with
  | nil => simp [runLines]
  | cons l rest ih =>
    constructor
    · intro h
      cases hstep : lineStep l with
      | none => exact ⟨l, by simp, hstep⟩
      | some o =>
        cases o with
        | none =>
          rw [runLines_cons_skip hstep] at h
          obtain ⟨x, hx, hxs⟩ := ih.mp h
          exact ⟨x, by simp [hx], hxs⟩
        | some out =>
          cases hrec : runLines rest with
          | none =>
            obtain ⟨x, hx, hxs⟩ := ih.mp hrec
            exact ⟨x, by simp [hx], hxs⟩
          | some r2 => rw [runLines_cons_out hstep hrec] at h; cases h
    · rintro ⟨x, hx, hxs⟩
      rcases List.mem_cons.mp hx with rfl | hx
      · exact runLines_cons_none hxs
      · cases hstep : lineStep l with
        | none => exact runLines_cons_none hstep
        | some o =>
          have hrest : runLines rest = none := ih.mpr ⟨x, hx, hxs⟩
          cases o with
          | none => rw [runLines_cons_skip hstep]; exact hrest
          | some out => exact runLines_cons_out_none hstep hrest

lemma lineStep_output_shape {l x : List Char} (h : lineStep l = some (some x)) :
    (∃ body, x = body ++ ['\n'] ∧ '\n' ∉ body) ∧ qualifies x = false := by
  obtain ⟨hq, w0, w1, ws, hs, rfl⟩ := lineStep_eq_out h
  constructor
  · refine ⟨joinSpace (pyCapitalize w0 :: pyCapitalize w1 :: ws), rfl, ?_⟩
    apply newline_not_mem_joinSpace
    intro w hw
    rcases List.mem_cons.mp hw with rfl | hw
    · exact pyCapitalize_not_space (fun c hc => (pySplit_tokens l w0 (by rw [hs]; simp)).2 c hc)
    · rcases List.mem_cons.mp hw with rfl | hw
      · exact pyCapitalize_not_space (fun c hc => (pySplit_tokens l w1 (by rw [hs]; simp)).2 c hc)
      · exact (pySplit_tokens l w (by rw [hs]; simp [hw])).2
  · cases l with
    | nil => simp [pySplit] at hs
    | cons c r =>
      have hql : pyIsLower c = true := by rw [qualifies] at hq; exact hq
      obtain ⟨t, ts, hts⟩ := pySplit_cons_of_not_space r (pyIsLower_not_space hql)
      rw [hs] at hts
      injection hts with h1 h2
      subst h1
      obtain ⟨rr, hrr⟩ := joinSpace_head (pyToUpper c) (t.map pyToLower) (pyCapitalize w1 :: ws)
      rw [show pyCapitalize (c :: t) = pyToUpper c :: t.map pyToLower from rfl, hrr]
      simp only [List.cons_append, qualifies]
      exact pyIsLower_pyToUpper hql

lemma runLines_output_shape :
    ∀ ls out, runLines ls = some out →
      ∀ x ∈ out, (∃ body, x = body ++ ['\n'] ∧ '\n' ∉ body) ∧ qualifies x = false := by
  intro ls
  induction ls with
  | nil =>
    intro out h
    rw [runLines, Option.some.injEq] at h
    subst h
    simp
  | cons l rest ih =>
    intro out h
    cases hstep : lineStep l with
    | none => rw [runLines_cons_none hstep] at h; cases h
    | some o =>
      cases o with
      | none => rw [runLines_cons_skip hstep] at h; exact ih out h
      | some x0 =>
        cases hrec : runLines rest with
        | none => rw [runLines_cons_out_none hstep hrec] at h; cases h
        | some r2 =>
          rw [runLines_cons_out hstep hrec, Option.some.injEq] at h
          subst h
          intro x hx
          rcases List.mem_cons.mp hx with rfl | hx
          · exact lineStep_output_shape hstep
          · exact ih r2 hrec x hx

lemma convertUppercase_none_iff {input : List Char} :
    convertUppercase input = none ↔ runLines (pyReadlines input) = none := by
  rw [convertUppercase]
  cases runLines (pyReadlines input) <;> simp

lemma convertUppercase_some_inv {input out : List Char}
    (h : convertUppercase input = some out) :
    ∃ ls, runLines (pyReadlines input) = some ls ∧ out = writelines ls := by
  rw [convertUppercase] at h
  cases hr : runLines (pyReadlines input) with
  | none => rw [hr] at h; cases h
  | some ls =>
    rw [hr] at h
    simp only [Option.some.injEq] at h
    exact ⟨ls, rfl, h.symm⟩

lemma lineStep_none_char {l : List Char} (hne : l ≠ []) (h : lineStep l = none) :
    qualifies l = true ∧ (pySplit l).length < 2 := by
  cases l with
  | nil => exact absurd rfl hne
  | cons c r =>
    by_cases hq : pyIsLower c = true
    · refine ⟨by rw [qualifies]; exact hq, ?_⟩
      cases hs : pySplit (c :: r) with
      | nil => simp
      | cons w0 ws =>
        cases ws with
        | nil => simp
        | cons w1 ws2 =>
          rw [lineStep, if_pos hq, hs] at h
          simp at h
    · rw [lineStep, if_neg hq] at h
      simp at h

/-! The claims. -/

/-- C1: for every input line whose first character is a lowercase letter
and which splits into at least two whitespace-delimited tokens, the loop
appends exactly the line rebuilt from its tokens with the first two
capitalized, the rest kept verbatim, all rejoined with single spaces and
one trailing newline. -/
theorem claim_C1 (l : List Char) (hq : qualifies l = true)
    (hlen : 2 ≤ (pySplit l).length) :
    lineStep l = some (some (specLineOutput l)) := by
  cases hs : pySplit l with
  | nil => rw [hs] at hlen; simp at hlen
  | cons w0 ws =>
    cases ws with
    | nil => rw [hs] at hlen; simp at hlen
    | cons w1 ws2 => rw [lineStep_long hq hs, specLineOutput_eq hs]

/-- Witness for C1 on a three-token qualifying line. -/
theorem claim_C1_witness :
    qualifies "elderberry Fig grape\n".data = true ∧
      2 ≤ (pySplit "elderberry Fig grape\n".data).length ∧
      lineStep "elderberry Fig grape\n".data =
        some (some (specLineOutput "elderberry Fig grape\n".data)) :=
  ⟨by decide, by decide, claim_C1 "elderberry Fig grape\n".data (by decide) (by decide)⟩

/-- C2: in any input, a line whose first character is not a lowercase
letter is dropped, not passed through: the loop iteration on such a line
appends nothing, and on every successful run, mixed inputs included, the
output lines come exclusively from the qualifying input lines; in
particular, when no line of the input qualifies the run writes empty
contents. -/
theorem claim_C2 :
    (∀ l : List Char, l ≠ [] → qualifies l = false → lineStep l = some none) ∧
    (∀ (input : List Char) (out : List (List Char)),
      runLines (pyReadlines input) = some out →
        out = List.map specLineOutput (List.filter qualifies (pyReadlines input))) ∧
    (∀ input : List Char,
      (∀ l ∈ pyReadlines input, qualifies l = false) → convertUppercase input = some []) := by
  refine ⟨fun l hne h => lineStep_not_qualifies hne h,
    fun input out h => runLines_filter _ _ h, fun input h => ?_⟩
  have hr : runLines (pyReadlines input) = some [] :=
    runLines_all_skip _ (fun l hl => ⟨mem_pyReadlines_ne_nil input l hl, h l hl⟩)
  rw [convertUppercase, hr]
  rfl

/-- Witness for C2: the uppercase-led line is dropped by its own loop
iteration, in a mixed input only the qualifying line reaches the output,
and a file of one uppercase-led and one digit-led line comes out empty. -/
theorem claim_C2_witness :
    lineStep "Cherry date\n".data = some none ∧
      (["Apple Banana\n".data] : List (List Char)) =
        List.map specLineOutput
          (List.filter qualifies (pyReadlines "apple banana\nCherry date\n".data)) ∧
      convertUppercase "Cherry date\n123 x\n".data = some [] :=
  ⟨claim_C2.1 "Cherry date\n".data (by decide) (by decide),
   claim_C2.2.1 "apple banana\nCherry date\n".data ["Apple Banana\n".data] (by decide),
   claim_C2.2.2 "Cherry date\n123 x\n".data (by decide)⟩

/-- C3: the run dies with an index error exactly when some line starts
with a lowercase letter but has fewer than two tokens, and in particular
it does so on the input solo plus newline. -/
theorem claim_C3 :
    (∀ input : List Char,
      convertUppercase input = none ↔
        ∃ l ∈ pyReadlines input, qualifies l = true ∧ (pySplit l).length < 2) ∧
      convertUppercase "solo\n".data = none := by
  constructor
  · intro input
    rw [convertUppercase_none_iff, runLines_none_iff]
    constructor
    · rintro ⟨l, hl, hstep⟩
      exact ⟨l, hl, lineStep_none_char (mem_pyReadlines_ne_nil input l hl) hstep⟩
    · rintro ⟨l, hl, hq, hlen⟩
      exact ⟨l, hl, lineStep_short hq hlen⟩
  · decide

/-- C4: the transformation is not idempotent; a second run on the output
of any successful run keeps nothing, because every written line starts
with an uppercased character. -/
theorem claim_C4 (input out : List Char) (h : convertUppercase input = some out) :
    convertUppercase out = some [] := by
  obtain ⟨ls, hls, rfl⟩ := convertUppercase_some_inv h
  have hshape := runLines_output_shape _ _ hls
  have hlines : pyReadlines (writelines ls) = ls :=
    pyReadlines_writelines ls (fun l hl => (hshape l hl).1)
  have hskip : runLines ls = some [] := by
    apply runLines_all_skip
    intro l hl
    obtain ⟨⟨body, hb, _⟩, hq⟩ := hshape l hl
    exact ⟨by rw [hb]; simp, hq⟩
  rw [convertUppercase, hlines, hskip]
  rfl

/-- Witness for C4 on a two-token qualifying line. -/
theorem claim_C4_witness :
    convertUppercase "apple pie\n".data = some "Apple Pie\n".data ∧
      convertUppercase "Apple Pie\n".data = some [] :=
  ⟨by decide, claim_C4 "apple pie\n".data "Apple Pie\n".data (by decide)⟩

/-- C5 counterexample: on an input whose every line qualifies, the run
succeeds and the output has exactly as many lines as the input, so the
kept lines are not a strict subset of the lines read. -/
theorem claim_C5_counterexample :
    runLines (pyReadlines "ab cd\n".data) = some ["Ab Cd\n".data] ∧
      ¬ ((["Ab Cd\n".data] : List (List Char)).length <
          (pyReadlines "ab cd\n".data).length) := by
  decide

/-- C5 amended: on every successful run the output lines are exactly the
transformed qualifying input lines in their original order, none
duplicated or invented, so their number is at most, but not necessarily
fewer than, the number of lines read. -/
theorem claim_C5 (input : List Char) (out : List (List Char))
    (h : runLines (pyReadlines input) = some out) :
    out = List.map specLineOutput (List.filter qualifies (pyReadlines input)) ∧
      out.length ≤ (pyReadlines input).length := by
  have h1 := runLines_filter _ _ h
  refine ⟨h1, ?_⟩
  rw [h1, List.length_map]
  exact List.length_filter_le _ _

/-- Witness for C5 on a mixed input. -/
theorem claim_C5_witness :
    runLines (pyReadlines "apple banana\nCherry date\n".data) =
        some ["Apple Banana\n".data] ∧
      (([("Apple Banana\n".data)] : List (List Char)) =
        List.map specLineOutput
          (List.filter qualifies (pyReadlines "apple banana\nCherry date\n".data)) ∧
       ([("Apple Banana\n".data)] : List (List Char)).length ≤
         (pyReadlines "apple banana\nCherry date\n".data).length) :=
  ⟨by decide, claim_C5 "apple banana\nCherry date\n".data ["Apple Banana\n".data] (by decide)⟩

/-- C6: on every successful run the number of output lines equals the
number of input lines whose first character is a lowercase letter. -/
theorem claim_C6 (input : List Char) (out : List (List Char))
    (h : runLines (pyReadlines input) = some out) :
    out.length = List.countP qualifies (pyReadlines input) := by
  rw [runLines_filter _ _ h, List.length_map, ← List.countP_eq_length_filter]

/-- Witness for C6 on a mixed input. -/
theorem claim_C6_witness :
    runLines (pyReadlines "apple banana\nCherry date\nelderberry Fig grape\n".data) =
        some ["Apple Banana\n".data, "Elderberry Fig grape\n".data] ∧
      (["Apple Banana\n".data, "Elderberry Fig grape\n".data] : List (List Char)).length =
        List.countP qualifies
          (pyReadlines "apple banana\nCherry date\nelderberry Fig grape\n".data) :=
  ⟨by decide,
    claim_C6 "apple banana\nCherry date\nelderberry Fig grape\n".data
      ["Apple Banana\n".data, "Elderberry Fig grape\n".data] (by decide)⟩

/-- C7: the documented three-line scenario produces exactly the documented
two-line output. -/
theorem claim_C7 :
    convertUppercase "apple banana\nCherry date\nelderberry Fig grape\n".data =
      some "Apple Banana\nElderberry Fig grape\n".data := by
  decide

/-- C8: when the transform loop raises, the run never reaches the open
for writing, so the target file keeps exactly its previous contents. -/
theorem claim_C8 (input : List Char) (h : convertUppercase input = none) :
    FileEvent.openWrite ∉ runTrace input ∧ finalFile input = input := by
  constructor
  · rw [runTrace, h]
    simp
  · rw [finalFile, runTrace, h]
    rfl

/-- Witness for C8 on the failing input solo plus newline. -/
theorem claim_C8_witness :
    convertUppercase "solo\n".data = none ∧
      (FileEvent.openWrite ∉ runTrace "solo\n".data ∧
        finalFile "solo\n".data = "solo\n".data) :=
  ⟨by decide, claim_C8 "solo\n".data (by decide)⟩

/-- C9: readlines never yields an empty line, and an empty file yields an
empty line list, so the first-character test never itself raises. -/
theorem claim_C9 :
    (∀ s : List Char, ∀ l ∈ pyReadlines s, l ≠ []) ∧ pyReadlines [] = [] :=
  ⟨mem_pyReadlines_ne_nil, rfl⟩

/-- Witness for C9 on a one-line file. -/
theorem claim_C9_witness : ("a b\n".data : List Char) ≠ [] :=
  claim_C9.1 "a b\n".data "a b\n".data (by decide)

/-- C10: a line whose first character is a lowercase letter splits into at
least one token, so taking and capitalizing the token at index zero never
raises; only index one can be out of range. -/
theorem claim_C10 (l : List Char) (hq : qualifies l = true) : pySplit l ≠ [] := by
  cases l with
  | nil => rw [qualifies] at hq; simp at hq
  | cons c r =>
    rw [qualifies] at hq
    obtain ⟨t, ts, hts⟩ := pySplit_cons_of_not_space r (pyIsLower_not_space hq)
    rw [hts]
    simp

/-- Witness for C10 on a one-token qualifying line. -/
theorem claim_C10_witness :
    qualifies "solo\n".data = true ∧ pySplit "solo\n".data ≠ [] :=
  ⟨by decide, claim_C10 "solo\n".data (by decide)⟩
